import Mathlib

/-!
Shallow embedding of the pairwise-distance kernels of `Pairs_Fortran.ipynb`.

The notebook computes the upper-triangular pairwise Euclidean distance
vector of an N×3 coordinate matrix twice: once in Cython (`r_ij_cython`)
and once in Fortran (`getrij`, wrapped by `r_ij_fortran`).  Machine
floating point is embedded as exact real arithmetic; the output memoryview
or array is embedded as a `List ℝ`, with the in-place writes `r[l] = ...`
becoming `List.set`.  Loop nests become `List.foldl` over the ranges the
source iterates over.
-/

/-- Embedding of the linear index expression
`l = int(i * (N - 1) - i * (i + 1) / 2 + j - 1)` appearing in both the
Cython and the Fortran kernel (C/Fortran integer division and subtraction
coincide with ℕ division and truncated subtraction on the loop domain
`0 ≤ i < j < N`). -/
def linindex (i j N : ℕ) : ℕ :=
  i * (N - 1) - i * (i + 1) / 2 + j - 1

/-- Embedding of the Cython kernel `r_ij_cython`: allocate
`np.zeros(int((N*N-N)/2))`, then for `i in prange(N)`, `j in range(i+1,N)`
accumulate `tmp = sum((coords[i,k]-coords[j,k])**2 for k in range(3))` and
store `r[l] = sqrt(tmp)` at `l = linindex i j N`.  The `prange` outer loop
is embedded sequentially (its iterations write disjoint slots, see the
disjointness theorem below). -/
noncomputable def r_ij_cython (N : ℕ) (coords : ℕ → ℕ → ℝ) : List ℝ :=
  (List.range N).foldl
    (fun r i =>
      (List.range' (i + 1) (N - (i + 1))).foldl
        (fun r j =>
          r.set (linindex i j N)
            (Real.sqrt
              ((List.range 3).foldl
                (fun tmp k => tmp + (coords i k - coords j k) ^ 2) 0)))
        r)
    (List.replicate ((N * N - N) / 2) 0)

/-- Embedding of the Fortran subroutine `getrij(coords, r, N, M)`.
`coords` is the flattened, 1-based `real*8` array of length `N*3`; `r` is
the 1-based output array, embedded as a 0-based list, so the Fortran write
`r(l)` with `l = 1 + (i*(N-1) - i*(i+1)/2 + j - 1)` lands at list position
`l - 1`.  The `k` loop runs over `k = 1, 3` and reads `coords(i*3 + k)`. -/
noncomputable def getrij (coords : ℕ → ℝ) (N M : ℕ) (r : List ℝ) : List ℝ :=
  (List.range N).foldl
    (fun r i =>
      (List.range' (i + 1) (N - (i + 1))).foldl
        (fun r j =>
          r.set (1 + (i * (N - 1) - i * (i + 1) / 2 + j - 1) - 1)
            (Real.sqrt
              ((List.range' 1 3).foldl
                (fun tmp k => tmp + (coords (i * 3 + k) - coords (j * 3 + k)) ^ 2) 0)))
        r)
    r

/-- Embedding of the Python wrapper `r_ij_fortran`: it computes
`M = (N*N - N)//2`, allocates `np.zeros(M)` and calls `getrij` on the
ravelled (row-major) coordinates, so the 1-based flat entry `m` is
`coords[(m-1) / 3][(m-1) % 3]`. -/
noncomputable def r_ij_fortran (N : ℕ) (coords : ℕ → ℕ → ℝ) : List ℝ :=
  getrij (fun m => coords ((m - 1) / 3) ((m - 1) % 3)) N ((N * N - N) / 2)
    (List.replicate ((N * N - N) / 2) 0)

/-- The value written by the Cython kernel for the pair `(i, j)`:
`sqrt(sum((coords[i,k]-coords[j,k])**2 for k in range(3)))`. -/
noncomputable def innerVal (coords : ℕ → ℕ → ℝ) (i j : ℕ) : ℝ :=
  Real.sqrt
    ((List.range 3).foldl (fun tmp k => tmp + (coords i k - coords j k) ^ 2) 0)

/-- Modelled from the spec: the reference brute-force distance for a fixed
pair, the naive `sqrt` of the sum of the three squared coordinate
differences, as computed by a plain sequential double loop. -/
noncomputable def referenceDistance (coords : ℕ → ℕ → ℝ) (i j : ℕ) : ℝ :=
  Real.sqrt
    ((coords i 0 - coords j 0) ^ 2 + (coords i 1 - coords j 1) ^ 2 +
      (coords i 2 - coords j 2) ^ 2)

/-- The index pairs `(i, j)` with `0 ≤ i < j < N` enumerated by the loop
nest. -/
def pairs (N : ℕ) : Finset (ℕ × ℕ) :=
  (Finset.range N ×ˢ Finset.range N).filter fun p => p.1 < p.2

/-- The set of output slots written by outer-loop iteration `i`, namely
`{linindex i j N : i < j < N}`. -/
def rowSlots (N i : ℕ) : Finset ℕ :=
  ((Finset.range N).filter fun j => i < j).image fun j => linindex i j N

/-- Concrete test input: the three points `(0,0,0)`, `(1,0,0)`, `(0,1,0)`
of the spec scenario. -/
noncomputable def testCoords : ℕ → ℕ → ℝ := fun i k =>
  if i = 1 ∧ k = 0 then 1 else if i = 2 ∧ k = 1 then 1 else 0

lemma NN_sub (N : ℕ) : N * N - N = N * (N - 1) := by
  cases N with
  | zero => rfl
  | succ m =>
    simp only [Nat.succ_sub_one]
    have h : (m + 1) * (m + 1) = (m + 1) * m + (m + 1) := by ring
    rw [h]
    omega

lemma two_mul_linindex {i j N : ℕ} (hij : i < j) (hjN : j < N) :
    2 * linindex i j N + i * (i + 1) + 2 = 2 * (i * (N - 1)) + 2 * j := by
  have h1 : i + 1 ≤ N - 1 := by omega
  have h2 : i * (i + 1) ≤ i * (N - 1) := Nat.mul_le_mul le_rfl h1
  have h3 : i * (i + 1) / 2 * 2 = i * (i + 1) :=
    Nat.div_mul_cancel (Nat.even_mul_succ_self i).two_dvd
  unfold linindex
  generalize hA : i * (N - 1) = A at h2 ⊢
  generalize hB : i * (i + 1) = B at h2 h3 ⊢
  omega

lemma linindex_lt_linindex {i₁ j₁ i₂ j₂ N : ℕ} (h₁ : i₁ < j₁) (h₂ : j₁ < N)
    (h₃ : i₂ < j₂) (h₄ : j₂ < N)
    (hlex : i₁ < i₂ ∨ (i₁ = i₂ ∧ j₁ < j₂)) :
    linindex i₁ j₁ N < linindex i₂ j₂ N := by
  have k₁ := two_mul_linindex h₁ h₂
  have k₂ := two_mul_linindex h₃ h₄
  rcases hlex with h | ⟨rfl, hj⟩
  · zify [show (1:ℕ) ≤ N from by omega] at k₁ k₂
    zify
    have hb : (0:ℤ) ≤ (i₂ : ℤ) - i₁ - 1 := by omega
    have hs : (0:ℤ) ≤ 2 * (N : ℤ) - i₁ - i₂ - 3 := by omega
    have hc : (j₁ : ℤ) ≤ (N : ℤ) - 1 := by omega
    have hd : (i₂ : ℤ) + 1 ≤ (j₂ : ℤ) := by omega
    nlinarith [mul_nonneg hb hs, k₁, k₂]
  · linarith [k₁, k₂]

lemma linindex_inj {i₁ j₁ i₂ j₂ N : ℕ} (h₁ : i₁ < j₁) (h₂ : j₁ < N)
    (h₃ : i₂ < j₂) (h₄ : j₂ < N)
    (heq : linindex i₁ j₁ N = linindex i₂ j₂ N) : i₁ = i₂ ∧ j₁ = j₂ := by
  rcases Nat.lt_trichotomy i₁ i₂ with h | h | h
  · exact absurd heq (Nat.ne_of_lt (linindex_lt_linindex h₁ h₂ h₃ h₄ (Or.inl h)))
  · subst h
    rcases Nat.lt_trichotomy j₁ j₂ with hj | hj | hj
    · exact absurd heq
        (Nat.ne_of_lt (linindex_lt_linindex h₁ h₂ h₃ h₄ (Or.inr ⟨rfl, hj⟩)))
    · exact ⟨rfl, hj⟩
    · exact absurd heq.symm
        (Nat.ne_of_lt (linindex_lt_linindex h₃ h₄ h₁ h₂ (Or.inr ⟨rfl, hj⟩)))
  · exact absurd heq.symm
      (Nat.ne_of_lt (linindex_lt_linindex h₃ h₄ h₁ h₂ (Or.inl h)))

lemma linindex_lt_M {i j N : ℕ} (hij : i < j) (hjN : j < N) :
    linindex i j N < (N * N - N) / 2 := by
  have k := two_mul_linindex hij hjN
  have hN : (1:ℕ) ≤ N := by omega
  have h2 : N ≤ N * N := Nat.le_mul_of_pos_left N (by omega)
  have key : 2 * linindex i j N + 2 ≤ N * N - N := by
    zify [hN] at k
    zify [h2]
    have h1 : (0:ℤ) ≤ ((N : ℤ) - 1 - i) * ((N : ℤ) - 2 - i) := by
      apply mul_nonneg <;> omega
    have hc : (j : ℤ) ≤ (N : ℤ) - 1 := by omega
    nlinarith [h1, k]
  obtain ⟨X, hX⟩ : ∃ X, N * N - N = X := ⟨_, rfl⟩
  rw [hX] at key ⊢
  omega

lemma foldl_length_inv {α : Type} (F : List ℝ → α → List ℝ)
    (h : ∀ r a, (F r a).length = r.length) :
    ∀ (as : List α) (r : List ℝ), (as.foldl F r).length = r.length := by
  intro as
  induction as with
  | nil => intro r; rfl
  | cons a t ih => intro r; rw [List.foldl_cons, ih, h]

lemma foldl_getElem_inv {α : Type} (F : List ℝ → α → List ℝ) (l : ℕ) :
    ∀ (as : List α), (∀ r a, a ∈ as → (F r a)[l]? = r[l]?) →
      ∀ r : List ℝ, (as.foldl F r)[l]? = r[l]? := by
  intro as
  induction as with
  | nil => intro _ r; rfl
  | cons a t ih =>
    intro h r
    rw [List.foldl_cons, ih (fun r b hb => h r b (List.mem_cons_of_mem _ hb)),
      h r a (List.mem_cons_self a t)]

lemma foldl_congr {α : Type} (F G : List ℝ → α → List ℝ) :
    ∀ (as : List α), (∀ r a, a ∈ as → F r a = G r a) →
      ∀ r : List ℝ, as.foldl F r = as.foldl G r := by
  intro as
  induction as with
  | nil => intro _ r; rfl
  | cons a t ih =>
    intro h r
    rw [List.foldl_cons, List.foldl_cons, h r a (List.mem_cons_self a t),
      ih (fun r b hb => h r b (List.mem_cons_of_mem _ hb))]

lemma writeFold_get_not_mem (g : ℕ → ℕ) (v : ℕ → ℝ) (js : List ℕ) (l : ℕ)
    (h : ∀ j ∈ js, g j ≠ l) (r : List ℝ) :
    (js.foldl (fun r j => r.set (g j) (v j)) r)[l]? = r[l]? :=
  foldl_getElem_inv _ l js (fun _ j hj => List.getElem?_set_ne (h j hj)) r

lemma writeFold_get_mem (g : ℕ → ℕ) (v : ℕ → ℝ) :
    ∀ (js : List ℕ) (j : ℕ),
      (∀ a ∈ js, ∀ b ∈ js, g a = g b → a = b) →
      ∀ r : List ℝ, j ∈ js → g j < r.length →
        (js.foldl (fun r j => r.set (g j) (v j)) r)[g j]? = some (v j) := by
  intro js
  induction js with
  | nil => intro j _ r hj; exact absurd hj (List.not_mem_nil j)
  | cons a t ih =>
    intro j hinj r hj hlen
    rw [List.foldl_cons]
    by_cases hjt : j ∈ t
    · exact ih j
        (fun x hx y hy => hinj x (List.mem_cons_of_mem _ hx) y (List.mem_cons_of_mem _ hy))
        _ hjt (by rw [List.length_set]; exact hlen)
    · have hja : j = a := by
        rcases List.mem_cons.mp hj with h | h
        · exact h
        · exact absurd h hjt
      subst hja
      rw [writeFold_get_not_mem g v t (g j)
        (fun b hb hgb =>
          hjt (by
            have : b = j := hinj b (List.mem_cons_of_mem _ hb) j (List.mem_cons_self j t) hgb
            rwa [this] at hb))]
      exact List.getElem?_set_eq_of_lt (v j) hlen

lemma r_ij_cython_def (N : ℕ) (coords : ℕ → ℕ → ℝ) :
    r_ij_cython N coords =
      (List.range N).foldl
        (fun r i =>
          (List.range' (i + 1) (N - (i + 1))).foldl
            (fun r j => r.set (linindex i j N) (innerVal coords i j)) r)
        (List.replicate ((N * N - N) / 2) 0) := rfl

lemma r_ij_cython_length (N : ℕ) (coords : ℕ → ℕ → ℝ) :
    (r_ij_cython N coords).length = (N * N - N) / 2 := by
  rw [r_ij_cython_def,
    foldl_length_inv _
      (fun r i => foldl_length_inv _ (fun r j => List.length_set r _ _) _ r),
    List.length_replicate]

lemma range_split {i N : ℕ} (hiN : i < N) :
    List.range N = List.range' 0 i ++ (i :: List.range' (i + 1) (N - (i + 1))) := by
  have h1 : List.range' i (N - i) = i :: List.range' (i + 1) (N - (i + 1)) := by
    have h : N - i = (N - (i + 1)) + 1 := by omega
    rw [h, List.range'_succ]
  rw [List.range_eq_range', ← h1]
  have h2 := List.range'_append_1 0 i (N - i)
  rw [Nat.zero_add, show N - i + i = N from by omega] at h2
  exact h2.symm

lemma r_ij_cython_getElem {N : ℕ} (coords : ℕ → ℕ → ℝ) {i j : ℕ}
    (hij : i < j) (hjN : j < N) :
    (r_ij_cython N coords)[linindex i j N]? = some (innerVal coords i j) := by
  have hiN : i < N := lt_trans hij hjN
  rw [r_ij_cython_def, range_split hiN, List.foldl_append, List.foldl_cons]
  rw [foldl_getElem_inv _ (linindex i j N) _ ?later _]
  · refine writeFold_get_mem (fun j => linindex i j N) (fun j => innerVal coords i j)
      _ j ?inj _ ?mem ?len
    case inj =>
      intro a ha b hb hab
      rw [List.mem_range'_1] at ha hb
      exact (linindex_inj (by omega) (by omega) (by omega) (by omega) hab).2
    case mem =>
      rw [List.mem_range'_1]
      omega
    case len =>
      rw [foldl_length_inv _
        (fun r i => foldl_length_inv _ (fun r j => List.length_set r _ _) _ r),
        List.length_replicate]
      exact linindex_lt_M hij hjN
  · intro r i' hi'
    rw [List.mem_range'_1] at hi'
    refine writeFold_get_not_mem (fun j' => linindex i' j' N)
      (fun j' => innerVal coords i' j') _ _ ?hne r
    intro j' hj' heq
    rw [List.mem_range'_1] at hj'
    have := (linindex_inj (show i' < j' by omega) (show j' < N by omega) hij hjN heq).1
    omega

lemma innerVal_eq (coords : ℕ → ℕ → ℝ) (i j : ℕ) :
    innerVal coords i j =
      Real.sqrt
        ((coords i 0 - coords j 0) ^ 2 + (coords i 1 - coords j 1) ^ 2 +
          (coords i 2 - coords j 2) ^ 2) := by
  unfold innerVal
  rw [show List.range 3 = [0, 1, 2] from rfl]
  rw [List.foldl_cons, List.foldl_cons, List.foldl_cons, List.foldl_nil, zero_add]

lemma innerVal_test01 : innerVal testCoords 0 1 = 1 := by
  rw [innerVal_eq]
  unfold testCoords
  norm_num

lemma innerVal_test02 : innerVal testCoords 0 2 = 1 := by
  rw [innerVal_eq]
  unfold testCoords
  norm_num

lemma innerVal_test12 : innerVal testCoords 1 2 = Real.sqrt 2 := by
  rw [innerVal_eq]
  unfold testCoords
  norm_num

lemma pairs_succ (N : ℕ) :
    pairs (N + 1) = pairs N ∪ (Finset.range N).image (fun i => (i, N)) := by
  ext p
  simp only [pairs, Finset.mem_filter, Finset.mem_product, Finset.mem_range,
    Finset.mem_union, Finset.mem_image]
  constructor
  · rintro ⟨⟨h1, h2⟩, h3⟩
    by_cases hp : p.2 = N
    · right
      exact ⟨p.1, by omega, by rw [← hp]⟩
    · left
      exact ⟨⟨by omega, by omega⟩, h3⟩
  · rintro (⟨⟨h1, h2⟩, h3⟩ | ⟨a, ha, rfl⟩)
    · exact ⟨⟨by omega, by omega⟩, h3⟩
    · exact ⟨⟨by omega, by omega⟩, by omega⟩

lemma card_pairs (N : ℕ) : (pairs N).card = N * (N - 1) / 2 := by
  induction N with
  | zero => rfl
  | succ m ih =>
    have hdisj : Disjoint (pairs m) ((Finset.range m).image (fun i => (i, m))) := by
      rw [Finset.disjoint_left]
      rintro p hp hq
      simp only [pairs, Finset.mem_filter, Finset.mem_product, Finset.mem_range] at hp
      simp only [Finset.mem_image, Finset.mem_range] at hq
      obtain ⟨a, _, rfl⟩ := hq
      omega
    have hinj : Function.Injective (fun i : ℕ => (i, m)) := by
      intro a b h
      exact congrArg Prod.fst h
    rw [pairs_succ, Finset.card_union_of_disjoint hdisj,
      Finset.card_image_of_injective _ hinj, Finset.card_range, ih]
    have key : (m + 1) * m = m * (m - 1) + 2 * m := by
      cases m with
      | zero => rfl
      | succ n =>
        simp only [Nat.succ_sub_one]
        ring
    have hdvd : 2 ∣ m * (m - 1) := by
      cases m with
      | zero => exact ⟨0, rfl⟩
      | succ n =>
        simp only [Nat.succ_sub_one]
        rw [Nat.mul_comm]
        exact (Nat.even_mul_succ_self n).two_dvd
    rw [Nat.add_sub_cancel]
    generalize hA : m * (m - 1) = A at key hdvd ⊢
    generalize hB : (m + 1) * m = B at key ⊢
    omega

lemma r_ij_cython_test : r_ij_cython 3 testCoords = [1, 1, Real.sqrt 2] := by
  have len : (r_ij_cython 3 testCoords).length = 3 := r_ij_cython_length 3 testCoords
  have h01 := r_ij_cython_getElem (N := 3) testCoords (i := 0) (j := 1)
    (by omega) (by omega)
  have h02 := r_ij_cython_getElem (N := 3) testCoords (i := 0) (j := 2)
    (by omega) (by omega)
  have h12 := r_ij_cython_getElem (N := 3) testCoords (i := 1) (j := 2)
    (by omega) (by omega)
  rw [show linindex 0 1 3 = 0 from rfl, innerVal_test01] at h01
  rw [show linindex 0 2 3 = 1 from rfl, innerVal_test02] at h02
  rw [show linindex 1 2 3 = 2 from rfl, innerVal_test12] at h12
  apply List.ext_getElem?
  intro n
  match n with
  | 0 => rw [h01]; rfl
  | 1 => rw [h02]; rfl
  | 2 => rw [h12]; rfl
  | (m + 3) =>
    rw [List.getElem?_eq_none (by omega), List.getElem?_eq_none (by simp)]

lemma r_ij_fortran_eq (N : ℕ) (coords : ℕ → ℕ → ℝ) :
    r_ij_fortran N coords = r_ij_cython N coords := by
  rw [r_ij_cython_def]
  unfold r_ij_fortran getrij
  apply foldl_congr
  intro r i _
  apply foldl_congr
  intro r' j _
  have hpos : 1 + (i * (N - 1) - i * (i + 1) / 2 + j - 1) - 1 = linindex i j N := by
    show 1 + linindex i j N - 1 = linindex i j N
    omega
  rw [hpos, innerVal_eq]
  congr 1
  rw [show List.range' 1 3 = [1, 2, 3] from rfl]
  simp only [List.foldl_cons, List.foldl_nil, zero_add]
  simp only [show ∀ a : ℕ, a * 3 + 1 - 1 = a * 3 from fun a => rfl,
    show ∀ a : ℕ, a * 3 / 3 = a from fun a => by omega,
    show ∀ a : ℕ, a * 3 % 3 = 0 from fun a => by omega,
    show ∀ a : ℕ, (a * 3 + 2 - 1) / 3 = a from fun a => by omega,
    show ∀ a : ℕ, (a * 3 + 2 - 1) % 3 = 1 from fun a => by omega,
    show ∀ a : ℕ, (a * 3 + 3 - 1) / 3 = a from fun a => by omega,
    show ∀ a : ℕ, (a * 3 + 3 - 1) % 3 = 2 from fun a => by omega]

lemma foldl_mem_inv {α : Type} (F : List ℝ → α → List ℝ) (P : ℝ → Prop)
    (h : ∀ r a x, (∀ y ∈ r, P y) → x ∈ F r a → P x) :
    ∀ (as : List α) (r : List ℝ), (∀ y ∈ r, P y) → ∀ x ∈ as.foldl F r, P x := by
  intro as
  induction as with
  | nil => intro r hr x hx; exact hr x hx
  | cons a t ih =>
    intro r hr x hx
    rw [List.foldl_cons] at hx
    exact ih _ (fun y hy => h r a y hr hy) x hx

lemma r_ij_cython_mem_nonneg (N : ℕ) (coords : ℕ → ℕ → ℝ) :
    ∀ x ∈ r_ij_cython N coords, 0 ≤ x := by
  rw [r_ij_cython_def]
  refine foldl_mem_inv _ (fun x => 0 ≤ x) ?_ _ _ ?_
  · intro r i x hr hx
    refine foldl_mem_inv _ (fun x => 0 ≤ x) ?_ _ r hr x hx
    intro r' j y hr' hy
    rcases List.mem_or_eq_of_mem_set hy with h | h
    · exact hr' y h
    · rw [h]; exact Real.sqrt_nonneg _
  · intro y hy
    rw [List.eq_of_mem_replicate hy]

/-- Concrete input agreeing with `testCoords` on every entry the N = 3
kernel reads, but different elsewhere. -/
noncomputable def testCoordsB : ℕ → ℕ → ℝ := fun i k =>
  if i < 3 ∧ k < 3 then testCoords i k else 37

/-- C1: for every N×3 real matrix `coords` and every pair of row indices
`i < j` in `[0, N)`, the vector returned by the pairwise distance kernel
holds `sqrt(sum over k in {0,1,2} of (coords[i][k]-coords[j][k])^2)` at
position `linindex i j N`. -/
theorem C1_distance_at_linindex (N : ℕ) (coords : ℕ → ℕ → ℝ) (i j : ℕ)
    (hij : i < j) (hjN : j < N) :
    (r_ij_cython N coords)[linindex i j N]? =
      some (Real.sqrt ((coords i 0 - coords j 0) ^ 2 +
        (coords i 1 - coords j 1) ^ 2 + (coords i 2 - coords j 2) ^ 2)) := by
  rw [r_ij_cython_getElem coords hij hjN, innerVal_eq]

/-- Witness for C1 at the concrete N = 3 test input and the pair (0, 1). -/
theorem C1_distance_at_linindex_witness :
    (r_ij_cython 3 testCoords)[linindex 0 1 3]? =
      some (Real.sqrt ((testCoords 0 0 - testCoords 1 0) ^ 2 +
        (testCoords 0 1 - testCoords 1 1) ^ 2 +
        (testCoords 0 2 - testCoords 1 2) ^ 2)) :=
  C1_distance_at_linindex 3 testCoords 0 1 (by decide) (by decide)

/-- C2: for every N, both kernels return a vector of length N*(N-1)/2. -/
theorem C2_output_length (N : ℕ) (coords : ℕ → ℕ → ℝ) :
    (r_ij_cython N coords).length = N * (N - 1) / 2 ∧
    (r_ij_fortran N coords).length = N * (N - 1) / 2 := by
  constructor
  · rw [r_ij_cython_length, NN_sub]
  · rw [r_ij_fortran_eq, r_ij_cython_length, NN_sub]

/-- C3: for every N, `linindex(·,·,N)` is a bijection from
`{(i,j) : 0 ≤ i < j < N}` onto `{0, ..., N*(N-1)/2 - 1}`: it is injective
on the pair set (no collisions) and its image is exactly
`Finset.range (N*(N-1)/2)` (no gaps). -/
theorem C3_linindex_bijection (N : ℕ) :
    Set.InjOn (fun p : ℕ × ℕ => linindex p.1 p.2 N) ↑(pairs N) ∧
    (pairs N).image (fun p => linindex p.1 p.2 N) =
      Finset.range (N * (N - 1) / 2) := by
  have hmem : ∀ p : ℕ × ℕ, p ∈ pairs N ↔ p.1 < p.2 ∧ p.2 < N := by
    intro p
    simp only [pairs, Finset.mem_filter, Finset.mem_product, Finset.mem_range]
    constructor
    · rintro ⟨⟨_, h2⟩, h3⟩; exact ⟨h3, h2⟩
    · rintro ⟨h1, h2⟩; exact ⟨⟨by omega, h2⟩, h1⟩
  have hinj : Set.InjOn (fun p : ℕ × ℕ => linindex p.1 p.2 N) ↑(pairs N) := by
    intro p hp q hq heq
    rw [Finset.mem_coe, hmem] at hp hq
    have h := linindex_inj hp.1 hp.2 hq.1 hq.2 heq
    exact Prod.ext h.1 h.2
  refine ⟨hinj, ?_⟩
  have hsub : (pairs N).image (fun p => linindex p.1 p.2 N) ⊆
      Finset.range (N * (N - 1) / 2) := by
    intro x hx
    rw [Finset.mem_image] at hx
    obtain ⟨p, hp, rfl⟩ := hx
    rw [hmem] at hp
    rw [Finset.mem_range, ← NN_sub]
    exact linindex_lt_M hp.1 hp.2
  refine (Finset.eq_of_subset_of_card_le hsub ?_).symm.symm
  rw [Finset.card_range, Finset.card_image_of_injOn hinj, card_pairs]

/-- C4: the write sets of two distinct outer-loop iterations
`i₁ ≠ i₂ < N` are disjoint, so no output slot is written by two different
outer iterations. -/
theorem C4_row_write_sets_disjoint (N i₁ i₂ : ℕ) (h₁ : i₁ < N) (h₂ : i₂ < N)
    (hne : i₁ ≠ i₂) : Disjoint (rowSlots N i₁) (rowSlots N i₂) := by
  rw [Finset.disjoint_left]
  intro x hx₁ hx₂
  simp only [rowSlots, Finset.mem_image, Finset.mem_filter, Finset.mem_range] at hx₁ hx₂
  obtain ⟨j₁, ⟨hj₁N, hij₁⟩, rfl⟩ := hx₁
  obtain ⟨j₂, ⟨hj₂N, hij₂⟩, heq⟩ := hx₂
  exact hne ((linindex_inj hij₂ hj₂N hij₁ hj₁N heq).1).symm

/-- Witness for C4 at N = 3, rows 0 and 1. -/
theorem C4_row_write_sets_disjoint_witness :
    Disjoint (rowSlots 3 0) (rowSlots 3 1) :=
  C4_row_write_sets_disjoint 3 0 1 (by decide) (by decide) (by decide)

/-- C5: on the three points (0,0,0), (1,0,0), (0,1,0) the kernel returns
`[1, 1, sqrt 2]`, and the three pairs land at linear indices 0, 1, 2. -/
theorem C5_concrete_scenario :
    r_ij_cython 3 testCoords = [1, 1, Real.sqrt 2] ∧
    linindex 0 1 3 = 0 ∧ linindex 0 2 3 = 1 ∧ linindex 1 2 3 = 2 :=
  ⟨r_ij_cython_test, rfl, rfl, rfl⟩

/-- C6: for fewer than 2 rows (N = 0 and the degenerate N = 1 case) both
kernels return the empty sequence; the computation is total, so there is
no error. -/
theorem C6_degenerate_empty (N : ℕ) (coords : ℕ → ℕ → ℝ) (h : N ≤ 1) :
    r_ij_cython N coords = [] ∧ r_ij_fortran N coords = [] := by
  have hc : r_ij_cython N coords = [] := by
    rcases (show N = 0 ∨ N = 1 from by omega) with rfl | rfl
    · rfl
    · rfl
  exact ⟨hc, by rw [r_ij_fortran_eq, hc]⟩

/-- Witness for C6 at N = 1. -/
theorem C6_degenerate_empty_witness :
    r_ij_cython 1 testCoords = [] ∧ r_ij_fortran 1 testCoords = [] :=
  C6_degenerate_empty 1 testCoords (by decide)

/-- C7: for every pair i < j < N the value stored by the kernel equals the
distance computed by the naive sequential reference implementation. -/
theorem C7_matches_reference (N : ℕ) (coords : ℕ → ℕ → ℝ) (i j : ℕ)
    (hij : i < j) (hjN : j < N) :
    (r_ij_cython N coords)[linindex i j N]? =
      some (referenceDistance coords i j) := by
  rw [r_ij_cython_getElem coords hij hjN, innerVal_eq]
  rfl

/-- Witness for C7 at the concrete N = 3 test input and the pair (0, 2). -/
theorem C7_matches_reference_witness :
    (r_ij_cython 3 testCoords)[linindex 0 2 3]? =
      some (referenceDistance testCoords 0 2) :=
  C7_matches_reference 3 testCoords 0 2 (by decide) (by decide)

/-- C8: on every N×3 input the Fortran and the Cython kernel produce
identical results (exactly equal in the exact-real embedding). -/
theorem C8_implementations_agree (N : ℕ) (coords : ℕ → ℕ → ℝ) :
    r_ij_fortran N coords = r_ij_cython N coords :=
  r_ij_fortran_eq N coords

/-- C9: the computation is pure, total and deterministic: it is a total
function of the N×3 block of entries it reads, so two runs on inputs that
agree on every read entry return equal output. -/
theorem C9_pure_deterministic (N : ℕ) (c₁ c₂ : ℕ → ℕ → ℝ)
    (h : ∀ i k, i < N → k < 3 → c₁ i k = c₂ i k) :
    r_ij_cython N c₁ = r_ij_cython N c₂ := by
  rw [r_ij_cython_def, r_ij_cython_def]
  apply foldl_congr
  intro r i hi
  rw [List.mem_range] at hi
  apply foldl_congr
  intro r' j hj
  rw [List.mem_range'_1] at hj
  have hjN : j < N := by omega
  congr 1
  rw [innerVal_eq, innerVal_eq,
    h i 0 hi (by omega), h i 1 hi (by omega), h i 2 hi (by omega),
    h j 0 hjN (by omega), h j 1 hjN (by omega), h j 2 hjN (by omega)]

/-- Witness for C9: two concretely different inputs agreeing on the read
entries give equal output. -/
theorem C9_pure_deterministic_witness :
    r_ij_cython 3 testCoords = r_ij_cython 3 testCoordsB :=
  C9_pure_deterministic 3 testCoords testCoordsB
    (fun i k hi hk => by simp [testCoordsB, hi, hk])

/-- C10: every entry of the returned distance vector is non-negative:
written entries are square roots, unwritten entries stay at the allocated
zero. -/
theorem C10_entries_nonneg (N : ℕ) (coords : ℕ → ℕ → ℝ) :
    (r_ij_cython N coords).Forall (fun x => 0 ≤ x) :=
  List.forall_iff_forall_mem.mpr (r_ij_cython_mem_nonneg N coords)
